import Mathlib

/-!
# Verification of the slide-deck compaction pipeline (`4_slides_filter.py`)

Shallow embedding of the Python script that removes redundant
"progressive reveal" pages from PDF slide decks, together with theorems
settling the specification claims about it.

Modelling conventions:
* a page's extracted text is a `List Char`; Python `str.split("\n")`
  becomes `splitNl`, Python `"\n".join` becomes `joinNl`;
* Python dicts (insertion ordered, overwrite on existing key) become
  association lists manipulated by `dictGet?` / `dictInsert`;
* Python `sorted` on the integer keys becomes `List.insertionSort`;
* Python sets of page numbers become `Finset Nat`;
* the PyMuPDF (`fitz`) document handle is modelled by `FitzDoc`
  (a page count plus a closed flag); operations on a closed handle
  raise `ValueError("document closed")`, modelled with `Except`.
-/

/-- Python `text.split("\n")` on a list of characters.  Always returns a
non-empty list of lines; splitting the empty text gives `[[]]`, exactly as
`"".split("\n") == [""]` in Python. -/
def splitNl : List Char → List (List Char)
  | [] => [[]]
  | c :: rest =>
    match splitNl rest with
    | [] => [[]]
    | l :: ls => if c = '\n' then [] :: l :: ls else (c :: l) :: ls

/-- Python `"\n".join(lines)` on lists of characters. -/
def joinNl : List (List Char) → List Char
  | [] => []
  | [l] => l
  | l :: ls => l ++ '\n' :: joinNl ls

theorem splitNl_cons_eq {rest l : List Char} {ls : List (List Char)} (c : Char)
    (h : splitNl rest = l :: ls) :
    splitNl (c :: rest) = if c = '\n' then [] :: l :: ls else (c :: l) :: ls := by
  simp only [splitNl, h]

theorem splitNl_ne_nil (t : List Char) : splitNl t ≠ [] := by
  induction t with
  | nil => simp [splitNl]
  | cons c rest ih =>
    cases h : splitNl rest with
    | nil => exact absurd h ih
    | cons l ls =>
      rw [splitNl_cons_eq c h]
      split <;> simp

theorem joinNl_cons (l : List Char) (ls : List (List Char)) :
    joinNl (l :: ls) = l ++ (if ls = [] then [] else '\n' :: joinNl ls) := by
  cases ls <;> simp [joinNl]

theorem joinNl_splitNl (t : List Char) : joinNl (splitNl t) = t := by
  induction t with
  | nil => simp [splitNl, joinNl]
  | cons c rest ih =>
    cases h : splitNl rest with
    | nil => exact absurd h (splitNl_ne_nil rest)
    | cons l ls =>
      rw [h] at ih
      rw [splitNl_cons_eq c h]
      by_cases hc : c = '\n'
      · subst hc
        rw [if_pos rfl, joinNl_cons]
        simp [ih]
      · rw [if_neg hc, joinNl_cons]
        rw [joinNl_cons] at ih
        simp [ih]

theorem splitNl_eq_cons (t : List Char) :
    splitNl t = t.takeWhile (fun c => c != '\n') :: (splitNl t).tail := by
  induction t with
  | nil => simp [splitNl]
  | cons c rest ih =>
    cases h : splitNl rest with
    | nil => exact absurd h (splitNl_ne_nil rest)
    | cons l ls =>
      rw [h] at ih
      rw [splitNl_cons_eq c h]
      by_cases hc : c = '\n'
      · subst hc; simp [List.takeWhile]
      · rw [if_neg hc]
        have hb : (c != '\n') = true := by simp [hc]
        have hl : l = rest.takeWhile (fun c => c != '\n') := by
          have := congrArg (List.headD · []) ih
          simpa using this
        simp [List.takeWhile_cons, hb, hl]

theorem splitNl_tail_nil_iff (t : List Char) :
    (splitNl t).tail = [] ↔ t.dropWhile (fun c => c != '\n') = [] := by
  induction t with
  | nil => simp [splitNl]
  | cons c rest ih =>
    cases h : splitNl rest with
    | nil => exact absurd h (splitNl_ne_nil rest)
    | cons l ls =>
      rw [h] at ih
      rw [splitNl_cons_eq c h]
      by_cases hc : c = '\n'
      · subst hc
        simp [List.dropWhile]
      · rw [if_neg hc]
        have hb : (c != '\n') = true := by simp [hc]
        simp only [List.dropWhile_cons, hb, if_true]
        simpa using ih

theorem splitNl_tail_join (t : List Char) :
    joinNl ((splitNl t).tail) = (t.dropWhile (fun c => c != '\n')).tail := by
  induction t with
  | nil => simp [splitNl, joinNl]
  | cons c rest ih =>
    cases h : splitNl rest with
    | nil => exact absurd h (splitNl_ne_nil rest)
    | cons l ls =>
      rw [h] at ih
      rw [splitNl_cons_eq c h]
      by_cases hc : c = '\n'
      · subst hc
        have hj := joinNl_splitNl rest
        rw [h] at hj
        simp [List.dropWhile, hj]
      · rw [if_neg hc]
        have hb : (c != '\n') = true := by simp [hc]
        simp only [List.dropWhile_cons, hb, if_true]
        simpa using ih

/-- The `Slide` record of the script (lines 13–18): page number (1-based),
title and content text.  `content_length` is derived from the content,
exactly as the constructor computes `len(content)`. -/
structure Slide where
  page_number : Nat
  title : List Char
  content : List Char
deriving DecidableEq

/-- `self.content_length = len(content)` (line 18). -/
def Slide.content_length (s : Slide) : Nat := s.content.length

/-- Line 39: `title = lines[0] if lines[0] else "No Title"`.
`splitNl` never returns `[]`, mirroring the fact that the `if lines:`
guard on line 38 is always true in Python. -/
def slideTitle (text : List Char) : List Char :=
  let lines := splitNl text
  if lines.headD [] = [] then "No Title".toList else lines.headD []

/-- Line 40: `content = "\n".join(lines[1:]) if len(lines) > 1 else "No Content"`. -/
def slideContent (text : List Char) : List Char :=
  let lines := splitNl text
  if 1 < lines.length then joinNl lines.tail else "No Content".toList

/-- The page loop of `extract_slide_information` (lines 34–42): pages are
numbered from `n`, and each page's text yields one `Slide`. -/
def extractFrom (n : Nat) : List (List Char) → List Slide
  | [] => []
  | text :: rest =>
    { page_number := n, title := slideTitle text, content := slideContent text }
      :: extractFrom (n + 1) rest

/-- `extract_slide_information` (lines 29–47) on an already-extracted list
of page texts: page numbers start at 1 (`page_number + 1` on line 41). -/
def extract_slide_information (pages : List (List Char)) : List Slide :=
  extractFrom 1 pages

/-- Lookup in a Python dict modelled as an insertion-ordered association
list: `d[k]` when present, `none` otherwise. -/
def dictGet? {κ α : Type} [DecidableEq κ] (k : κ) : List (κ × α) → Option α
  | [] => none
  | (q, v) :: rest => if k = q then some v else dictGet? k rest

/-- `d[k] = v` on a Python dict: overwrites the value of an existing key in
place (keeping its insertion position), otherwise appends the new key at
the end, exactly Python's insertion-order semantics. -/
def dictInsert {κ α : Type} [DecidableEq κ] (k : κ) (v : α) : List (κ × α) → List (κ × α)
  | [] => [(k, v)]
  | (q, w) :: rest => if k = q then (k, v) :: rest else (q, w) :: dictInsert k v rest

/-- One iteration of the loop of `create_slide_dict` (lines 79–82): ensure
the title has an (initially empty) inner dict, then set
`slide_dict[slide.title][slide.page_number] = slide.content_length`. -/
def csStep (d : List (List Char × List (Nat × Nat))) (s : Slide) :
    List (List Char × List (Nat × Nat)) :=
  dictInsert s.title
    (dictInsert s.page_number s.content_length ((dictGet? s.title d).getD [])) d

/-- `create_slide_dict` (lines 77–83): fold the slides into a dict mapping
each title to the dict `page_number → content_length` of its slides. -/
def create_slide_dict (slides : List Slide) : List (List Char × List (Nat × Nat)) :=
  slides.foldl csStep []

/-- Python `sorted(pages.keys())` paired with the corresponding lookups
`pages[k]`: the (key, value) pairs sorted by key.  On dict-derived lists
the keys are distinct, so sorting the pairs by key agrees with sorting the
keys and looking each one up. -/
def sortPairs (pages : List (Nat × Nat)) : List (Nat × Nat) :=
  List.insertionSort (fun a b => a.1 ≤ b.1) pages

/-- The scan of `find_pages_to_keep` (lines 101–104): walking consecutive
pairs of the position-sorted list, every position whose immediate successor
has strictly smaller content length is emitted (the `keep_pages.append`
on line 103).  The running `max_length` of the source is computed but never
used, so it is not modelled. -/
def peaksList : List (Nat × Nat) → List Nat
  | a :: b :: rest => (if b.2 < a.2 then [a.1] else []) ++ peaksList (b :: rest)
  | _ => []

/-- `find_pages_to_keep` (lines 97–106): the emitted local peaks followed by
the unconditionally appended last position (line 105).  The source indexes
`page_numbers[0]` and so raises on an empty dict; the script only ever
calls it on dicts with at least two entries (line 89), and the `[]` case
here is never reached from `filter_slide_dict`. -/
def find_pages_to_keep (pages : List (Nat × Nat)) : List Nat :=
  match sortPairs pages with
  | [] => []
  | p :: rest => peaksList (p :: rest) ++ [((p :: rest).getLastD (0, 0)).1]

/-- The per-title branch of `filter_slide_dict` (lines 89–93): groups with
more than one page go through `find_pages_to_keep`, the rest keep all
their pages (`list(pages.keys())`). -/
def filterEntry (pages : List (Nat × Nat)) : List Nat :=
  if 1 < pages.length then find_pages_to_keep pages else pages.map Prod.fst

/-- `filter_slide_dict` (lines 86–94). -/
def filter_slide_dict (slide_dict : List (List Char × List (Nat × Nat))) :
    List (List Char × List Nat) :=
  slide_dict.map (fun e => (e.1, filterEntry e.2))

/-- Lines 116–118 of `filter_pdf_pages`: the union of all retained page
lists into one `pages_to_keep` set. -/
def pagesToKeep (filtered_dict : List (List Char × List Nat)) : Finset Nat :=
  filtered_dict.foldl (fun acc e => acc ∪ e.2.toFinset) ∅

/-- The retained-page set a single `process_file` call (lines 59–64)
computes for one document: extraction is taken as given (the slides), then
`create_slide_dict`, `filter_slide_dict` and the page-set union of
`filter_pdf_pages`. -/
def process_file_keep (slides : List Slide) : Finset Nat :=
  pagesToKeep (filter_slide_dict (create_slide_dict slides))

/-- `process_directory` (lines 69–74): one independent `process_file`
submission per document; the retained set of each document is computed
from that document alone. -/
def batchKeep (docs : List (List Slide)) : List (Finset Nat) :=
  docs.map process_file_keep

theorem sortPairs_perm (pages : List (Nat × Nat)) : (sortPairs pages).Perm pages :=
  List.perm_insertionSort _ pages

theorem mem_sortPairs {x : Nat × Nat} {pages : List (Nat × Nat)} :
    x ∈ sortPairs pages ↔ x ∈ pages :=
  (sortPairs_perm pages).mem_iff

theorem sortPairs_eq_nil_iff {pages : List (Nat × Nat)} :
    sortPairs pages = [] ↔ pages = [] := by
  constructor
  · intro h
    have := (sortPairs_perm pages).length_eq
    rw [h] at this
    exact List.length_eq_zero.mp this.symm
  · intro h; subst h; rfl

theorem peaksList_subset {x : Nat} :
    ∀ {l : List (Nat × Nat)}, x ∈ peaksList l → x ∈ l.map Prod.fst
  | [], h => by simp [peaksList] at h
  | [a], h => by simp [peaksList] at h
  | a :: b :: rest, h => by
    rw [peaksList] at h
    rcases List.mem_append.mp h with h1 | h2
    · have : x = a.1 := by
        by_cases hd : b.2 < a.2
        · simpa [hd] using h1
        · simp [hd] at h1
      simp [this]
    · have := peaksList_subset h2
      simp only [List.map_cons] at this ⊢
      exact List.mem_cons_of_mem _ this

theorem peaksList_append_cons (s : List (Nat × Nat)) (a b : Nat × Nat)
    (t : List (Nat × Nat)) (hlt : b.2 < a.2) :
    a.1 ∈ peaksList (s ++ a :: b :: t) := by
  induction s with
  | nil =>
    simp only [List.nil_append, peaksList, if_pos hlt]
    exact List.mem_append_left _ (List.mem_singleton.mpr rfl)
  | cons x s ih =>
    cases h : s ++ a :: b :: t with
    | nil => simp at h
    | cons y rest =>
      have : x :: s ++ a :: b :: t = x :: y :: rest := by simp [h]
      rw [this, peaksList]
      rw [h] at ih
      exact List.mem_append_right _ ih

theorem peaksList_of_chain :
    ∀ {l : List (Nat × Nat)},
      List.Chain' (fun a b : Nat × Nat => a.2 ≤ b.2) l → peaksList l = []
  | [], _ => rfl
  | [a], _ => rfl
  | a :: b :: rest, h => by
    rcases List.chain'_cons.mp h with ⟨hab, htail⟩
    rw [peaksList, if_neg (not_lt.mpr hab), List.nil_append]
    exact peaksList_of_chain htail

theorem find_pages_to_keep_subset {x : Nat} {pages : List (Nat × Nat)}
    (h : x ∈ find_pages_to_keep pages) : x ∈ pages.map Prod.fst := by
  rw [find_pages_to_keep] at h
  cases hsp : sortPairs pages with
  | nil => rw [hsp] at h; simp at h
  | cons p rest =>
    rw [hsp] at h
    have hmap : (p :: rest).map Prod.fst = (sortPairs pages).map Prod.fst := by rw [hsp]
    have hperm : ((sortPairs pages).map Prod.fst).Perm (pages.map Prod.fst) :=
      (sortPairs_perm pages).map Prod.fst
    rcases List.mem_append.mp h with h1 | h2
    · exact hperm.mem_iff.mp (hmap ▸ peaksList_subset h1)
    · have hx : x = ((p :: rest).getLastD (0, 0)).1 := by simpa using h2
      have hmem : (p :: rest).getLastD (0, 0) ∈ p :: rest := by
        rw [List.getLastD_cons]
        exact List.getLastD_mem_cons rest p
      have : x ∈ (p :: rest).map Prod.fst :=
        hx ▸ List.mem_map.mpr ⟨_, hmem, rfl⟩
      exact hperm.mem_iff.mp (hmap ▸ this)

theorem last_mem_find_pages_to_keep {pages : List (Nat × Nat)} (h : pages ≠ []) :
    ((sortPairs pages).getLastD (0, 0)).1 ∈ find_pages_to_keep pages := by
  rw [find_pages_to_keep]
  cases hsp : sortPairs pages with
  | nil => exact absurd (sortPairs_eq_nil_iff.mp hsp) h
  | cons p rest =>
    exact List.mem_append_right _ (List.mem_singleton.mpr rfl)

theorem find_pages_to_keep_ne_nil {pages : List (Nat × Nat)} (h : pages ≠ []) :
    find_pages_to_keep pages ≠ [] := by
  rw [find_pages_to_keep]
  cases hsp : sortPairs pages with
  | nil => exact absurd (sortPairs_eq_nil_iff.mp hsp) h
  | cons p rest => simp

theorem filterEntry_subset {x : Nat} {pages : List (Nat × Nat)}
    (h : x ∈ filterEntry pages) : x ∈ pages.map Prod.fst := by
  rw [filterEntry] at h
  split at h
  · exact find_pages_to_keep_subset h
  · exact h

theorem filterEntry_ne_nil {pages : List (Nat × Nat)} (h : pages ≠ []) :
    filterEntry pages ≠ [] := by
  rw [filterEntry]
  split
  · exact find_pages_to_keep_ne_nil h
  · simpa using h

theorem dictInsert_mem {κ α : Type} [DecidableEq κ] {k : κ} {v : α} {x : κ × α} :
    ∀ {d : List (κ × α)}, x ∈ dictInsert k v d → x = (k, v) ∨ x ∈ d
  | [], h => by simpa [dictInsert] using h
  | (q, w) :: rest, h => by
    rw [dictInsert] at h
    split at h
    · rcases List.mem_cons.mp h with h1 | h1
      · exact Or.inl h1
      · exact Or.inr (List.mem_cons_of_mem _ h1)
    · rcases List.mem_cons.mp h with h1 | h1
      · exact Or.inr (h1 ▸ List.mem_cons_self _ _)
      · rcases dictInsert_mem h1 with h2 | h2
        · exact Or.inl h2
        · exact Or.inr (List.mem_cons_of_mem _ h2)

theorem dictInsert_ne_nil {κ α : Type} [DecidableEq κ] {k : κ} {v : α}
    (d : List (κ × α)) : dictInsert k v d ≠ [] := by
  cases d with
  | nil => simp [dictInsert]
  | cons e rest =>
    obtain ⟨q, w⟩ := e
    rw [dictInsert]
    split <;> simp

theorem dictGet?_mem {κ α : Type} [DecidableEq κ] {k : κ} {v : α} :
    ∀ {d : List (κ × α)}, dictGet? k d = some v → (k, v) ∈ d
  | [], h => by simp [dictGet?] at h
  | (q, w) :: rest, h => by
    rw [dictGet?] at h
    split at h
    · rename_i hq
      obtain rfl := hq
      obtain rfl : w = v := by simpa using h
      exact List.mem_cons_self _ _
    · exact List.mem_cons_of_mem _ (dictGet?_mem h)

/-- Invariant of the `create_slide_dict` fold: every position recorded in
any inner dict is the page number of one of the folded slides (or was
already in the accumulator). -/
theorem foldl_csStep_positions (P : Nat → Prop) :
    ∀ (slides : List Slide) (d : List (List Char × List (Nat × Nat))),
      (∀ e ∈ d, ∀ pr ∈ e.2, P pr.1) →
      (∀ s ∈ slides, P s.page_number) →
      ∀ e ∈ slides.foldl csStep d, ∀ pr ∈ e.2, P pr.1
  | [], d, hd, _, e, he, pr, hpr => hd e he pr hpr
  | s :: rest, d, hd, hs, e, he, pr, hpr => by
    rw [List.foldl_cons] at he
    refine foldl_csStep_positions P rest (csStep d s) ?_
      (fun u hu => hs u (List.mem_cons_of_mem _ hu)) e he pr hpr
    intro e' he' pr' hpr'
    rcases dictInsert_mem he' with h1 | h1
    · subst h1
      rcases dictInsert_mem hpr' with h2 | h2
      · subst h2
        exact hs s (List.mem_cons_self _ _)
      · cases hg : dictGet? s.title d with
        | none => rw [hg] at h2; simp at h2
        | some ps =>
          rw [hg] at h2
          exact hd _ (dictGet?_mem hg) pr' h2
    · exact hd e' h1 pr' hpr'

/-- Invariant of the `create_slide_dict` fold: inner dicts are never empty. -/
theorem foldl_csStep_values_ne_nil :
    ∀ (slides : List Slide) (d : List (List Char × List (Nat × Nat))),
      (∀ e ∈ d, e.2 ≠ []) →
      ∀ e ∈ slides.foldl csStep d, e.2 ≠ []
  | [], d, hd, e, he => hd e he
  | s :: rest, d, hd, e, he => by
    rw [List.foldl_cons] at he
    refine foldl_csStep_values_ne_nil rest (csStep d s) ?_ e he
    intro e' he'
    rcases dictInsert_mem he' with h1 | h1
    · subst h1
      exact dictInsert_ne_nil _
    · exact hd e' h1

theorem foldl_csStep_ne_nil :
    ∀ (slides : List Slide) (d : List (List Char × List (Nat × Nat))),
      d ≠ [] → slides.foldl csStep d ≠ []
  | [], _, hd => hd
  | s :: rest, d, _ => by
    rw [List.foldl_cons]
    exact foldl_csStep_ne_nil rest (csStep d s) (dictInsert_ne_nil d)

theorem create_slide_dict_positions {slides : List Slide}
    {e : List Char × List (Nat × Nat)} (he : e ∈ create_slide_dict slides)
    {pr : Nat × Nat} (hpr : pr ∈ e.2) : pr.1 ∈ slides.map Slide.page_number :=
  foldl_csStep_positions (· ∈ slides.map Slide.page_number) slides []
    (by simp) (fun s hs => List.mem_map.mpr ⟨s, hs, rfl⟩) e he pr hpr

theorem create_slide_dict_values_ne_nil {slides : List Slide}
    {e : List Char × List (Nat × Nat)} (he : e ∈ create_slide_dict slides) :
    e.2 ≠ [] :=
  foldl_csStep_values_ne_nil slides [] (by simp) e he

theorem create_slide_dict_ne_nil {slides : List Slide} (h : slides ≠ []) :
    create_slide_dict slides ≠ [] := by
  cases slides with
  | nil => exact absurd rfl h
  | cons s rest =>
    rw [create_slide_dict, List.foldl_cons]
    exact foldl_csStep_ne_nil rest (csStep [] s) (dictInsert_ne_nil [])

theorem mem_foldl_union (x : Nat) :
    ∀ (l : List (List Char × List Nat)) (init : Finset Nat),
      (x ∈ l.foldl (fun acc e => acc ∪ e.2.toFinset) init ↔
        x ∈ init ∨ ∃ e ∈ l, x ∈ e.2)
  | [], init => by simp
  | e :: rest, init => by
    rw [List.foldl_cons, mem_foldl_union x rest]
    simp only [Finset.mem_union, List.mem_toFinset, List.mem_cons]
    constructor
    · rintro ((h | h) | ⟨e', he', hx⟩)
      · exact Or.inl h
      · exact Or.inr ⟨e, Or.inl rfl, h⟩
      · exact Or.inr ⟨e', Or.inr he', hx⟩
    · rintro (h | ⟨e', (rfl | he'), hx⟩)
      · exact Or.inl (Or.inl h)
      · exact Or.inl (Or.inr hx)
      · exact Or.inr ⟨e', he', hx⟩

theorem mem_pagesToKeep {x : Nat} {filtered_dict : List (List Char × List Nat)} :
    x ∈ pagesToKeep filtered_dict ↔ ∃ e ∈ filtered_dict, x ∈ e.2 := by
  rw [pagesToKeep, mem_foldl_union]
  simp

/-- The global retained set of one document is a subset of the document's
page numbers. -/
theorem process_file_keep_subset {slides : List Slide} :
    process_file_keep slides ⊆ (slides.map Slide.page_number).toFinset := by
  intro x hx
  rw [process_file_keep, mem_pagesToKeep] at hx
  obtain ⟨e, he, hxe⟩ := hx
  rw [filter_slide_dict] at he
  obtain ⟨e', he', rfl⟩ := List.mem_map.mp he
  have hx' : x ∈ e'.2.map Prod.fst := filterEntry_subset hxe
  obtain ⟨pr, hpr, rfl⟩ := List.mem_map.mp hx'
  exact List.mem_toFinset.mpr (create_slide_dict_positions he' hpr)

/-- The global retained set of one document is non-empty whenever the
document has at least one slide. -/
theorem process_file_keep_nonempty {slides : List Slide} (h : slides ≠ []) :
    (process_file_keep slides).Nonempty := by
  have hd := create_slide_dict_ne_nil h
  cases hcd : create_slide_dict slides with
  | nil => exact absurd hcd hd
  | cons e rest =>
    have hev : e.2 ≠ [] :=
      create_slide_dict_values_ne_nil (hcd ▸ List.mem_cons_self e rest)
    have hfe : filterEntry e.2 ≠ [] := filterEntry_ne_nil hev
    cases hfl : filterEntry e.2 with
    | nil => exact absurd hfl hfe
    | cons y ys =>
      refine ⟨y, ?_⟩
      rw [process_file_keep, mem_pagesToKeep]
      refine ⟨(e.1, filterEntry e.2), ?_, by rw [hfl]; exact List.mem_cons_self _ _⟩
      rw [filter_slide_dict, hcd]
      exact List.mem_map.mpr ⟨e, List.mem_cons_self _ _, rfl⟩

/-- Modelled from the spec: the cross-document grouping variant the spec
attributes to the source — grouping by title spans all documents of the
batch (the snapshot sequences are concatenated before grouping), one
retention decision is taken per merged group, and the merged keep set is
then intersected, per document, with that document's own position range.
This definition follows the spec's words and exists to be compared with
`batchKeep`, the embedding of the actual code. -/
def spec_mergedBatchKeep (docs : List (List Slide)) : List (Finset Nat) :=
  let merged := process_file_keep docs.flatten
  docs.map (fun d => merged ∩ (d.map Slide.page_number).toFinset)

/-- A PyMuPDF document handle: its page count and whether `close()` has
been called on it. -/
structure FitzDoc where
  page_count : Nat
  closed : Bool
deriving DecidableEq

/-- Python `len(document)` on a `fitz` document: PyMuPDF's
`Document.__len__` returns `page_count`, whose property getter raises
`ValueError("document closed")` once the document has been closed. -/
def fitzLen (d : FitzDoc) : Except String Nat :=
  if d.closed then Except.error "document closed" else Except.ok d.page_count

/-- `document.close()` (line 125). -/
def closeDoc (d : FitzDoc) : FitzDoc := { d with closed := true }

/-- The reporting tail of `filter_pdf_pages` (lines 116–129): the
`pages_to_keep` union (lines 116–118), then — after the output is saved
and both documents are closed (lines 123–125) —
`removed_pages_count = len(document) - len(pages_to_keep)` (line 127).
Because `document` was closed on line 125, `len(document)` raises, control
jumps to the `except` handler (line 130), and the info messages of lines
128–129 are never logged.  `Except.ok n` models the successful report of a
removed count `n`; `Except.error` models the logged failure. -/
def filter_pdf_pages_report (document : FitzDoc)
    (filtered_dict : List (List Char × List Nat)) : Except String Nat :=
  let pages_to_keep := pagesToKeep filtered_dict
  let documentAfterClose := closeDoc document
  match fitzLen documentAfterClose with
  | Except.error e => Except.error e
  | Except.ok total => Except.ok (total - pages_to_keep.card)

/-- The removed-count formula of line 127 as it would evaluate had it run
before `document.close()`: total pages of the source minus the number of
retained pages. -/
def removedCountIntended (document : FitzDoc)
    (filtered_dict : List (List Char × List Nat)) : Nat :=
  document.page_count - (pagesToKeep filtered_dict).card

/-- Everything `process_directory` (lines 69–74) reports for a batch: the
per-document retained sets (one `process_file` submission per document,
line 72), the progress ticks of the `tqdm` loop (lines 73–74, one per
completed future), and the batch summary — the function body ends with the
progress loop, so no summary of succeeded/failed counts is ever produced. -/
structure BatchRunReport where
  outcomes : List (Finset Nat)
  ticks : Nat
  summary : Option (Nat × Nat)
deriving DecidableEq

/-- `process_directory` (lines 69–74) as observed from the outside. -/
def process_directory_report (docs : List (List Slide)) : BatchRunReport :=
  { outcomes := batchKeep docs, ticks := docs.length, summary := none }

/-- Python `s.replace(pat, rep)` on lists of characters, fuelled to keep
the recursion structural: scan left to right, replace every
(non-overlapping) occurrence of `pat`.  One unit of fuel is spent per
consumed character or per replaced occurrence, so `s.length` fuel always
suffices for a non-empty pattern. -/
def replaceFuel (pat rep : List Char) : Nat → List Char → List Char
  | _, [] => []
  | 0, s => s
  | fuel + 1, c :: s =>
    if pat.isPrefixOf (c :: s) then
      rep ++ replaceFuel pat rep fuel (s.drop (pat.length - 1))
    else
      c :: replaceFuel pat rep fuel s

/-- Python `s.replace(pat, rep)` (all occurrences). -/
def pyReplace (s pat rep : List Char) : List Char :=
  replaceFuel pat rep s.length s

/-- Line 112: `os.path.basename(pdf_path).replace(".pdf", "_filtered.pdf")`
applied to the basename. -/
def output_filename (basename : List Char) : List Char :=
  pyReplace basename ".pdf".toList "_filtered.pdf".toList

/-- Whether `pat` occurs as a contiguous substring, by the same
left-to-right prefix scan `replaceFuel` performs. -/
def hasOcc (pat : List Char) : List Char → Bool
  | [] => pat.isEmpty
  | c :: rest => pat.isPrefixOf (c :: rest) || hasOcc pat rest

/-- Modelled from the spec: the claim's variant of the filename derivation,
replacing only the **first** occurrence of the pattern (Python
`s.replace(pat, rep, 1)`).  Follows the claim's words, to be compared with
`output_filename`. -/
def replaceFirstFuel (pat rep : List Char) : Nat → List Char → List Char
  | _, [] => []
  | 0, s => s
  | fuel + 1, c :: s =>
    if pat.isPrefixOf (c :: s) then rep ++ s.drop (pat.length - 1)
    else c :: replaceFirstFuel pat rep fuel s

/-- Modelled from the spec: `basename.replace(".pdf", "_filtered.pdf", 1)`. -/
def spec_outputFilenameFirstOnly (basename : List Char) : List Char :=
  replaceFirstFuel ".pdf".toList "_filtered.pdf".toList basename.length basename

/-- Modelled from the spec: the title contract of §4.1 — the first
**non-empty** line of the unit's text, or the sentinel when there is none.
Follows the spec's words, to be compared with `slideTitle`. -/
def spec_title (text : List Char) : List Char :=
  match (splitNl text).filter (fun l => !l.isEmpty) with
  | [] => "No Title".toList
  | l :: _ => l

theorem replaceFuel_nil (pat rep : List Char) (fuel : Nat) :
    replaceFuel pat rep fuel [] = [] := by
  cases fuel <;> rfl

theorem replaceFuel_succ_cons (pat rep : List Char) (fuel : Nat) (c : Char)
    (s : List Char) :
    replaceFuel pat rep (fuel + 1) (c :: s) =
      if pat.isPrefixOf (c :: s) then
        rep ++ replaceFuel pat rep fuel (s.drop (pat.length - 1))
      else
        c :: replaceFuel pat rep fuel s := rfl

/-- A `.pdf` occurrence inside `u ++ ".pdf"` that starts inside `u` cannot
straddle the boundary: it lies entirely inside `u`, unless `u` is empty and
the occurrence is the appended suffix itself. -/
theorem pdf_prefix_append {u : List Char}
    (h : ['.', 'p', 'd', 'f'] <+: u ++ ['.', 'p', 'd', 'f']) :
    ['.', 'p', 'd', 'f'] <+: u ∨ u = [] := by
  match u with
  | [] => exact Or.inr rfl
  | [a] =>
    obtain ⟨tl, htl⟩ := h
    simp only [List.cons_append, List.nil_append, List.cons.injEq] at htl
    exact absurd htl.2.1 (by decide)
  | [a, b] =>
    obtain ⟨tl, htl⟩ := h
    simp only [List.cons_append, List.nil_append, List.cons.injEq] at htl
    exact absurd htl.2.2.1 (by decide)
  | [a, b, c] =>
    obtain ⟨tl, htl⟩ := h
    simp only [List.cons_append, List.nil_append, List.cons.injEq] at htl
    exact absurd htl.2.2.2.1 (by decide)
  | a :: b :: c :: d :: rest =>
    obtain ⟨tl, htl⟩ := h
    simp only [List.cons_append, List.cons.injEq] at htl
    obtain ⟨ha, hb, hc, hd, -⟩ := htl
    exact Or.inl ⟨rest, by rw [← ha, ← hb, ← hc, ← hd]; rfl⟩

/-- Core of the corrected filename claim: when the stem contains no
occurrence of `".pdf"`, the scan of `replaceFuel` walks the whole stem
without matching and replaces exactly the final extension. -/
theorem replaceFuel_stem_pdf (rep : List Char) :
    ∀ (fuel : Nat) (stem : List Char),
      (stem ++ ['.', 'p', 'd', 'f']).length ≤ fuel →
      hasOcc ['.', 'p', 'd', 'f'] stem = false →
      replaceFuel ['.', 'p', 'd', 'f'] rep fuel (stem ++ ['.', 'p', 'd', 'f']) =
        stem ++ rep
  | 0, stem, hlen, _ => by simp at hlen
  | fuel + 1, [], _, _ => by
    rw [List.nil_append, replaceFuel_succ_cons, if_pos (by decide)]
    simp [replaceFuel_nil]
  | fuel + 1, d :: t, hlen, hocc => by
    rw [hasOcc, Bool.or_eq_false_iff] at hocc
    obtain ⟨hpre, htocc⟩ := hocc
    rw [List.cons_append, replaceFuel_succ_cons, if_neg ?_]
    · have hlen' : (t ++ ['.', 'p', 'd', 'f']).length ≤ fuel := by
        simp only [List.length_append, List.length_cons] at hlen ⊢
        omega
      rw [replaceFuel_stem_pdf rep fuel t hlen' htocc, List.cons_append]
    · intro hif
      have hp : ['.', 'p', 'd', 'f'] <+: (d :: t) ++ ['.', 'p', 'd', 'f'] := by
        rw [List.cons_append]
        exact List.isPrefixOf_iff_prefix.mp hif
      rcases pdf_prefix_append hp with h1 | h1
      · exact absurd (List.isPrefixOf_iff_prefix.mpr h1) (by simp [hpre])
      · simp at h1

/-- C1 (counterexample): the claim says batch mode merges same-titled
groups across all documents of a directory, so one document's retained set
could depend on another's pages.  On the concrete batch
`[doc1 = (page 1 "T" len 10, page 2 "T" len 20), doc2 = (page 1 "T" len 5)]`
the code keeps `[{2}, {1}]` (each document grouped alone), while the
cross-document merged grouping the claim describes would keep `[{2}, ∅]`:
the two disagree, so grouping does not span documents. -/
theorem c1_batch_grouping_counterexample :
    batchKeep
        [[⟨1, ['T'], List.replicate 10 'x'⟩, ⟨2, ['T'], List.replicate 20 'x'⟩],
         [⟨1, ['T'], List.replicate 5 'x'⟩]] = [{2}, {1}]
    ∧ spec_mergedBatchKeep
        [[⟨1, ['T'], List.replicate 10 'x'⟩, ⟨2, ['T'], List.replicate 20 'x'⟩],
         [⟨1, ['T'], List.replicate 5 'x'⟩]] = [{2}, ∅]
    ∧ batchKeep
        [[⟨1, ['T'], List.replicate 10 'x'⟩, ⟨2, ['T'], List.replicate 20 'x'⟩],
         [⟨1, ['T'], List.replicate 5 'x'⟩]]
      ≠ spec_mergedBatchKeep
        [[⟨1, ['T'], List.replicate 10 'x'⟩, ⟨2, ['T'], List.replicate 20 'x'⟩],
         [⟨1, ['T'], List.replicate 5 'x'⟩]] := by
  refine ⟨by decide, by decide, by decide⟩

/-- C1 (amended): in batch (directory) mode each document is processed by
an independent `process_file` call, so grouping by title is scoped to one
document and the retained set computed for a document is a function of
that document's slides alone — it never depends on the other documents of
the batch. -/
theorem c1_per_document_grouping (pre post : List (List Slide)) (d : List Slide) :
    (batchKeep (pre ++ d :: post))[pre.length]? = some (process_file_keep d) := by
  rw [batchKeep, List.map_append, List.map_cons,
    List.getElem?_append_right (by simp)]
  simp

/-- C2 (counterexample): re-running the pipeline on the compacted output is
not a no-op.  For a single title with lengths `1 ↦ 10, 2 ↦ 5, 3 ↦ 30` the
first pass keeps `{1, 3}` (the drop 10→5 marks page 1, page 3 is last), but
a second pass over the kept pages sees `1 ↦ 10, 3 ↦ 30` — non-decreasing —
and keeps only `{3}`: position 1 is not retained again. -/
theorem c2_idempotence_counterexample :
    process_file_keep
        [⟨1, ['T'], List.replicate 10 'x'⟩, ⟨2, ['T'], List.replicate 5 'x'⟩,
         ⟨3, ['T'], List.replicate 30 'x'⟩] = {1, 3}
    ∧ (1 : Nat) ∉ process_file_keep
        (([⟨1, ['T'], List.replicate 10 'x'⟩, ⟨2, ['T'], List.replicate 5 'x'⟩,
           ⟨3, ['T'], List.replicate 30 'x'⟩] : List Slide).filter
          (fun s => decide (s.page_number ∈ process_file_keep
            [⟨1, ['T'], List.replicate 10 'x'⟩, ⟨2, ['T'], List.replicate 5 'x'⟩,
             ⟨3, ['T'], List.replicate 30 'x'⟩]))) := by
  refine ⟨by decide, by decide⟩

/-- C2 (amended): re-running grouping and retention selection on the
sequence restricted to the previously retained positions yields a retained
set that is a subset of the previous one and is still non-empty, but it
may be a strict subset — the pipeline is not idempotent. -/
theorem c2_rerun_subset (slides : List Slide) (h : slides ≠ []) :
    process_file_keep
        (slides.filter (fun s => decide (s.page_number ∈ process_file_keep slides)))
      ⊆ process_file_keep slides
    ∧ (process_file_keep
        (slides.filter
          (fun s => decide (s.page_number ∈ process_file_keep slides)))).Nonempty := by
  constructor
  · intro x hx
    have h1 := process_file_keep_subset hx
    rw [List.mem_toFinset] at h1
    obtain ⟨s, hs, rfl⟩ := List.mem_map.mp h1
    rw [List.mem_filter] at hs
    exact of_decide_eq_true hs.2
  · obtain ⟨p, hp⟩ := process_file_keep_nonempty h
    obtain ⟨s, hs, hsp⟩ :=
      List.mem_map.mp (List.mem_toFinset.mp (process_file_keep_subset hp))
    have hmem : s ∈ slides.filter
        (fun s => decide (s.page_number ∈ process_file_keep slides)) :=
      List.mem_filter.mpr ⟨hs, by rw [hsp]; exact decide_eq_true hp⟩
    apply process_file_keep_nonempty
    intro hnil
    rw [hnil] at hmem
    simp at hmem

/-- C2 (witness for the amended theorem). -/
theorem c2_rerun_subset_witness :
    ([⟨1, ['T'], ['x']⟩] : List Slide) ≠ []
    ∧ (process_file_keep
        (([⟨1, ['T'], ['x']⟩] : List Slide).filter
          (fun s => decide (s.page_number ∈ process_file_keep [⟨1, ['T'], ['x']⟩])))
        ⊆ process_file_keep [⟨1, ['T'], ['x']⟩]
      ∧ (process_file_keep
          (([⟨1, ['T'], ['x']⟩] : List Slide).filter
            (fun s => decide (s.page_number ∈
              process_file_keep [⟨1, ['T'], ['x']⟩])))).Nonempty) :=
  ⟨by decide, c2_rerun_subset _ (by decide)⟩

/-- C3: the claim — on every successful compaction the removed-unit count,
equal to total units minus retained units, is reported — matches the
formula on line 127 (`len(document) - len(pages_to_keep)`), but the code
evaluates it only **after** `document.close()` (line 125), so PyMuPDF
raises `ValueError("document closed")` and the report of lines 128–129 is
never emitted for any document: the code contradicts the obviously
intended report.  First conjunct: the report always takes the error path.
Second conjunct: on the spec's own scenario C (6-page source, retained
pages `{2, 3, 4, 6}`), the intended pre-close formula gives 2 removed,
exactly what the claim says should have been reported. -/
theorem c3_removed_count_never_reported :
    (∀ (document : FitzDoc) (filtered_dict : List (List Char × List Nat)),
        filter_pdf_pages_report document filtered_dict =
          Except.error "document closed")
    ∧ removedCountIntended { page_count := 6, closed := false }
        [("A".toList, [2]), ("B".toList, [3]), ("C".toList, [4, 6])] = 2 := by
  exact ⟨fun document filtered_dict => rfl, by decide⟩

/-- C4 (counterexample): for the page text `"\nFoo"` the first non-empty
line is `"Foo"`, yet the code takes `lines[0]` — the empty first line — and
produces the sentinel `"No Title"`; and the remaining text after that first
non-empty line is empty, so the claim requires the sentinel
`"No Content"`, yet the code produces `"Foo"` (the join of `lines[1:]`). -/
theorem c4_title_counterexample :
    slideTitle ('\n' :: "Foo".toList) = "No Title".toList
    ∧ spec_title ('\n' :: "Foo".toList) = "Foo".toList
    ∧ slideContent ('\n' :: "Foo".toList) = "Foo".toList
    ∧ "No Title".toList ≠ "Foo".toList
    ∧ slideContent ('\n' :: "Foo".toList) ≠ "No Content".toList := by
  refine ⟨by decide, by decide, by decide, by decide, by decide⟩

/-- C4 (amended): the snapshot's title is the **first line** of the unit's
text when that line is non-empty and the sentinel `"No Title"` otherwise
(even when a later line is non-empty); the content is the text after the
first newline when the text contains a newline, and the sentinel
`"No Content"` otherwise (in particular a text ending in its only newline
yields empty content, not the sentinel). -/
theorem c4_title_content_amended (t : List Char) :
    slideTitle t = (if t.takeWhile (fun c => c != '\n') = [] then "No Title".toList
                    else t.takeWhile (fun c => c != '\n'))
    ∧ slideContent t = (if t.dropWhile (fun c => c != '\n') = [] then
                          "No Content".toList
                        else (t.dropWhile (fun c => c != '\n')).tail) := by
  constructor
  · have hh : (splitNl t).headD [] = t.takeWhile (fun c => c != '\n') := by
      rw [splitNl_eq_cons t]
      rfl
    simp only [slideTitle, hh]
  · have hlen : (splitNl t).length = (splitNl t).tail.length + 1 := by
      conv_lhs => rw [splitNl_eq_cons t]
      rfl
    by_cases hdrop : t.dropWhile (fun c => c != '\n') = []
    · have htail : (splitNl t).tail = [] := (splitNl_tail_nil_iff t).mpr hdrop
      simp only [slideContent]
      rw [if_neg (by rw [hlen, htail]; simp), if_pos hdrop]
    · have htail : (splitNl t).tail ≠ [] := fun hx =>
        hdrop ((splitNl_tail_nil_iff t).mp hx)
      simp only [slideContent]
      rw [if_pos (by rw [hlen]; cases hx : (splitNl t).tail with
            | nil => exact absurd hx htail
            | cons y ys => simp [hx]),
        if_neg hdrop]
      exact splitNl_tail_join t

/-- C5: in any group with at least two positions, a position immediately
followed (in ascending position order) by one with strictly smaller
content length is retained by `find_pages_to_keep`. -/
theorem c5_strict_decrease_keeps_peak (pages : List (Nat × Nat))
    (hlen : 1 < pages.length) (a b : Nat × Nat)
    (hadj : [a, b] <:+: sortPairs pages) (hlt : b.2 < a.2) :
    a.1 ∈ find_pages_to_keep pages := by
  obtain ⟨s, t, hst⟩ := hadj
  rw [find_pages_to_keep]
  cases hsp : sortPairs pages with
  | nil => rw [hsp] at hst; simp at hst
  | cons p rest =>
    rw [hsp] at hst
    have hform : p :: rest = s ++ a :: b :: t := by
      rw [← hst]; simp
    refine List.mem_append_left _ ?_
    rw [hform]
    exact peaksList_append_cons s a b t hlt

/-- C5 (witness): spec §8 scenario A, group `{1:10, 2:20, 3:15, 4:30}` —
the drop 20→15 after position 2 forces position 2 into the result. -/
theorem c5_strict_decrease_keeps_peak_witness :
    1 < ([((1:Nat),(10:Nat)), (2,20), (3,15), (4,30)] : List (Nat × Nat)).length
    ∧ [((2:Nat),(20:Nat)), ((3:Nat),(15:Nat))] <:+:
        sortPairs [(1,10), (2,20), (3,15), (4,30)]
    ∧ (((3:Nat),(15:Nat)) : Nat × Nat).2 < (((2:Nat),(20:Nat)) : Nat × Nat).2
    ∧ (2:Nat) ∈ find_pages_to_keep [(1,10), (2,20), (3,15), (4,30)] :=
  ⟨by decide, by decide, by decide,
    c5_strict_decrease_keeps_peak _ (by decide) (2,20) (3,15) (by decide) (by decide)⟩

/-- C6: the last (highest) position of every non-empty group is in the
retained list `filterEntry` computes for the group, whichever branch of
`filter_slide_dict` applies (singleton groups included). -/
theorem c6_last_position_kept (pages : List (Nat × Nat)) (h : pages ≠ []) :
    ((sortPairs pages).getLastD (0, 0)).1 ∈ filterEntry pages := by
  rw [filterEntry]
  split
  · exact last_mem_find_pages_to_keep h
  · rename_i hle
    cases pages with
    | nil => exact absurd rfl h
    | cons p rest =>
      cases rest with
      | nil => simp [sortPairs, List.insertionSort, List.orderedInsert]
      | cons q more => simp at hle

/-- C6 (witness): spec §8 scenario B, the singleton group `{5: 42}`. -/
theorem c6_last_position_kept_witness :
    ([((5:Nat),(42:Nat))] : List (Nat × Nat)) ≠ []
    ∧ ((sortPairs [((5:Nat),(42:Nat))]).getLastD (0, 0)).1 ∈
        filterEntry [((5:Nat),(42:Nat))] :=
  ⟨by decide, c6_last_position_kept _ (by decide)⟩

/-- C7: ties never retain — for a non-empty group whose content lengths are
non-decreasing in ascending position order, `find_pages_to_keep` returns
exactly the singleton list holding the group's last position. -/
theorem c7_nondecreasing_keeps_only_last (pages : List (Nat × Nat))
    (h : pages ≠ [])
    (hmono : List.Chain' (fun a b : Nat × Nat => a.2 ≤ b.2) (sortPairs pages)) :
    find_pages_to_keep pages = [((sortPairs pages).getLastD (0, 0)).1] := by
  rw [find_pages_to_keep]
  cases hsp : sortPairs pages with
  | nil => exact absurd (sortPairs_eq_nil_iff.mp hsp) h
  | cons p rest =>
    rw [hsp] at hmono
    show peaksList (p :: rest) ++ [((p :: rest).getLastD (0, 0)).1] = _
    rw [peaksList_of_chain hmono, List.nil_append]

/-- C7 (witness): spec §8 scenario C group "A", `{1:5, 2:8}` — strictly
increasing, only position 2 kept. -/
theorem c7_nondecreasing_keeps_only_last_witness :
    ([((1:Nat),(5:Nat)), ((2:Nat),(8:Nat))] : List (Nat × Nat)) ≠ []
    ∧ List.Chain' (fun a b : Nat × Nat => a.2 ≤ b.2)
        (sortPairs [((1:Nat),(5:Nat)), ((2:Nat),(8:Nat))])
    ∧ find_pages_to_keep [((1:Nat),(5:Nat)), ((2:Nat),(8:Nat))] =
        [((sortPairs [((1:Nat),(5:Nat)), ((2:Nat),(8:Nat))]).getLastD (0, 0)).1] := by
  have hchain : List.Chain' (fun a b : Nat × Nat => a.2 ≤ b.2)
      (sortPairs [((1:Nat),(5:Nat)), ((2:Nat),(8:Nat))]) := by
    have hs : sortPairs [((1:Nat),(5:Nat)), ((2:Nat),(8:Nat))] =
        [((1:Nat),(5:Nat)), ((2:Nat),(8:Nat))] := by decide
    rw [hs]
    simp [List.chain'_cons]
  exact ⟨by decide, hchain,
    c7_nondecreasing_keeps_only_last _ (by decide) hchain⟩

/-- C8: for any slide sequence with distinct positions, the merged
retention set of the whole pipeline is a subset of the sequence's
positions, and it is non-empty whenever the sequence is non-empty. -/
theorem c8_retention_subset_nonempty (slides : List Slide)
    (huniq : (slides.map Slide.page_number).Nodup) :
    process_file_keep slides ⊆ (slides.map Slide.page_number).toFinset
    ∧ (slides ≠ [] → (process_file_keep slides).Nonempty) :=
  ⟨process_file_keep_subset, fun h => process_file_keep_nonempty h⟩

/-- C8 (witness): spec §8 scenario C — a six-page document with groups
"A":{1:5, 2:8}, "B":{3:9}, "C":{4:12, 5:6, 6:20}. -/
theorem c8_retention_subset_nonempty_witness :
    (([⟨1, ['A'], List.replicate 5 'x'⟩, ⟨2, ['A'], List.replicate 8 'x'⟩,
       ⟨3, ['B'], List.replicate 9 'x'⟩, ⟨4, ['C'], List.replicate 12 'x'⟩,
       ⟨5, ['C'], List.replicate 6 'x'⟩, ⟨6, ['C'], List.replicate 20 'x'⟩] :
        List Slide).map Slide.page_number).Nodup
    ∧ (process_file_keep
          [⟨1, ['A'], List.replicate 5 'x'⟩, ⟨2, ['A'], List.replicate 8 'x'⟩,
           ⟨3, ['B'], List.replicate 9 'x'⟩, ⟨4, ['C'], List.replicate 12 'x'⟩,
           ⟨5, ['C'], List.replicate 6 'x'⟩, ⟨6, ['C'], List.replicate 20 'x'⟩]
          ⊆ (([⟨1, ['A'], List.replicate 5 'x'⟩, ⟨2, ['A'], List.replicate 8 'x'⟩,
              ⟨3, ['B'], List.replicate 9 'x'⟩, ⟨4, ['C'], List.replicate 12 'x'⟩,
              ⟨5, ['C'], List.replicate 6 'x'⟩, ⟨6, ['C'], List.replicate 20 'x'⟩] :
               List Slide).map Slide.page_number).toFinset
        ∧ (([⟨1, ['A'], List.replicate 5 'x'⟩, ⟨2, ['A'], List.replicate 8 'x'⟩,
             ⟨3, ['B'], List.replicate 9 'x'⟩, ⟨4, ['C'], List.replicate 12 'x'⟩,
             ⟨5, ['C'], List.replicate 6 'x'⟩, ⟨6, ['C'], List.replicate 20 'x'⟩] :
              List Slide) ≠ [] →
            (process_file_keep
              [⟨1, ['A'], List.replicate 5 'x'⟩, ⟨2, ['A'], List.replicate 8 'x'⟩,
               ⟨3, ['B'], List.replicate 9 'x'⟩, ⟨4, ['C'], List.replicate 12 'x'⟩,
               ⟨5, ['C'], List.replicate 6 'x'⟩,
               ⟨6, ['C'], List.replicate 20 'x'⟩]).Nonempty)) :=
  ⟨by decide, c8_retention_subset_nonempty _ (by decide)⟩

/-- C9 (counterexample): the claim says a batch run ends with a summary of
succeeded and failed document counts.  `process_directory` (lines 69–74)
only submits the jobs and drains a progress bar; its body ends with the
`tqdm` loop, so the observable batch report carries no summary at all —
already on a two-document batch with one empty (failed-extraction)
document. -/
theorem c9_summary_counterexample :
    (process_directory_report [[⟨1, ['T'], ['x']⟩], []]).summary = none := rfl

/-- C9 (amended): after a batch run no success/failure summary is reported;
the batch only shows one progress tick per document, and every document of
the directory still contributes its own per-document outcome (a failure of
one document never removes another from the report). -/
theorem c9_no_summary_amended (docs : List (List Slide)) :
    (process_directory_report docs).summary = none
    ∧ (process_directory_report docs).outcomes.length = docs.length
    ∧ (process_directory_report docs).ticks = docs.length := by
  refine ⟨rfl, ?_, rfl⟩
  simp [process_directory_report, batchKeep]

/-- C10 (counterexample): the claim says only the **first** occurrence of
`".pdf"` is replaced, so `"a.pdf.backup.pdf"` would become
`"a_filtered.pdf.backup.pdf"`.  Python's `str.replace` with no count
replaces every occurrence: the code produces
`"a_filtered.pdf.backup_filtered.pdf"`. -/
theorem c10_replace_first_counterexample :
    output_filename "a.pdf.backup.pdf".toList =
      "a_filtered.pdf.backup_filtered.pdf".toList
    ∧ spec_outputFilenameFirstOnly "a.pdf.backup.pdf".toList =
      "a_filtered.pdf.backup.pdf".toList
    ∧ output_filename "a.pdf.backup.pdf".toList ≠
      spec_outputFilenameFirstOnly "a.pdf.backup.pdf".toList := by
  refine ⟨by decide, by decide, by decide⟩

/-- C10 (amended): the output filename replaces **every** occurrence of
`".pdf"` in the basename with `"_filtered.pdf"`; in particular, for every
basename whose only occurrence of `".pdf"` is its final extension, the
output is `"<stem>_filtered.pdf"`. -/
theorem c10_replace_all_amended (stem : List Char)
    (h : hasOcc ".pdf".toList stem = false) :
    output_filename (stem ++ ".pdf".toList) = stem ++ "_filtered.pdf".toList := by
  have hp : ".pdf".toList = ['.', 'p', 'd', 'f'] := rfl
  rw [output_filename, pyReplace, hp]
  exact replaceFuel_stem_pdf _ _ stem le_rfl (by rw [← hp]; exact h)

/-- C10 (witness for the amended theorem): `"slides.pdf"` becomes
`"slides_filtered.pdf"`. -/
theorem c10_replace_all_amended_witness :
    hasOcc ".pdf".toList "slides".toList = false
    ∧ output_filename ("slides".toList ++ ".pdf".toList) =
        "slides".toList ++ "_filtered.pdf".toList :=
  ⟨by decide, c10_replace_all_amended _ (by decide)⟩
